import Mathlib

/-!
Verification of the `intern-mint` byte-string interning pool.

The development shallowly embeds the library's data model and operations:
byte sequences are lists of `Fin 256`, the reference-counted shared buffer
`Arc<[u8]>` is a pair of an abstract address and its byte contents, and the
sharded pool `ShardedSet` is a state record holding the shard array (as a
function from indices to entry lists), the per-address strong counts, the
seeded hash function and the allocator's next fresh address.  Machine
integers are `Nat` with explicit reduction modulo `2 ^ 64` where the code
relies on wrap-around.
-/

/-- A single 8-bit byte. -/
abbrev Byte := Fin 256

/-- An immutable byte sequence. -/
abbrev Bytes := List Byte

/-- Lexicographic comparison of byte slices, the embedding of `<[u8] as Ord>::cmp`
(element-wise comparison of the common part; a strict prefix is smaller). -/
def sliceCompare : Bytes → Bytes → Ordering
  | [], [] => .eq
  | [], _ :: _ => .lt
  | _ :: _, [] => .gt
  | a :: as, b :: bs =>
    match compare a.val b.val with
    | .eq => sliceCompare as bs
    | .lt => .lt
    | .gt => .gt

theorem sliceCompare_eq_iff (x y : Bytes) : sliceCompare x y = .eq ↔ x = y := by
  induction x generalizing y with
  | nil => cases y <;> simp [sliceCompare]
  | cons a as ih =>
    cases y with
    | nil => simp [sliceCompare]
    | cons b bs =>
      rcases h : compare a.val b.val with hlt | heq | hgt
      · simp only [sliceCompare, h]
        have : a.val ≠ b.val := Nat.ne_of_lt (Nat.compare_eq_lt.mp h)
        constructor
        · intro hc; cases hc
        · intro hc
          injection hc with h1 _
          exact absurd (congrArg Fin.val h1) this
      · have hv : a = b := Fin.val_injective (Nat.compare_eq_eq.mp h)
        subst hv
        simp only [sliceCompare, h, ih]
        constructor
        · intro hc; rw [hc]
        · intro hc; injection hc
      · simp only [sliceCompare, h]
        have : b.val ≠ a.val := Nat.ne_of_lt (Nat.compare_eq_gt.mp h)
        constructor
        · intro hc; cases hc
        · intro hc
          injection hc with h1 _
          exact absurd (congrArg Fin.val h1).symm this

theorem sliceCompare_lt_iff (x y : Bytes) :
    sliceCompare x y = .lt ↔ List.Lex (· < ·) x y := by
  induction x generalizing y with
  | nil =>
    cases y with
    | nil => exact iff_of_false (by simp [sliceCompare]) (fun h => nomatch h)
    | cons b bs => exact iff_of_true rfl List.Lex.nil
  | cons a as ih =>
    cases y with
    | nil => exact iff_of_false (by simp [sliceCompare]) (fun h => nomatch h)
    | cons b bs =>
      rcases h : compare a.val b.val with _ | _ | _
      · have hab : a < b := Nat.compare_eq_lt.mp h
        exact iff_of_true (by simp [sliceCompare, h]) (List.Lex.rel hab)
      · have hv : a = b := Fin.val_injective (Nat.compare_eq_eq.mp h)
        subst hv
        have hstep : sliceCompare (a :: as) (a :: bs) = sliceCompare as bs := by
          simp [sliceCompare, h]
        rw [hstep, ih]
        constructor
        · intro hc; exact List.Lex.cons hc
        · intro hc
          cases hc with
          | cons htail => exact htail
          | rel hrel => exact absurd hrel (lt_irrefl a)
      · have hba : b < a := Nat.compare_eq_gt.mp h
        apply iff_of_false (by simp [sliceCompare, h])
        intro hc
        cases hc with
        | cons _ => exact absurd hba (lt_irrefl a)
        | rel hrel => exact absurd hrel (lt_asymm hba)

theorem sliceCompare_self (x : Bytes) : sliceCompare x x = .eq :=
  (sliceCompare_eq_iff x x).mpr rfl

/-- Fuel-driven floor of the base-2 logarithm; `fuel = n` always suffices. -/
def log2fuel : Nat → Nat → Nat
  | 0, _ => 0
  | fuel + 1, n => if n ≤ 1 then 0 else log2fuel fuel (n / 2) + 1

/-- Floor of the base-2 logarithm of a positive number (0 on 0 and 1). -/
def log2n (n : Nat) : Nat := log2fuel n n

theorem log2fuel_bounds (fuel : Nat) :
    ∀ n, n ≤ fuel → 1 ≤ n → 2 ^ log2fuel fuel n ≤ n ∧ n < 2 ^ (log2fuel fuel n + 1) := by
  induction fuel with
  | zero => intro n hn h1; omega
  | succ f ih =>
    intro n hn h1
    by_cases hle : n ≤ 1
    · have hn1 : n = 1 := by omega
      subst hn1
      simp [log2fuel]
    · have h2 : 2 ≤ n := by omega
      have hdiv : n / 2 ≤ f := by omega
      have hdiv1 : 1 ≤ n / 2 := by omega
      obtain ⟨hlo, hhi⟩ := ih (n / 2) hdiv hdiv1
      simp only [log2fuel, if_neg hle]
      constructor
      · have : 2 ^ (log2fuel f (n / 2) + 1) = 2 * 2 ^ log2fuel f (n / 2) := by ring
        rw [this]
        omega
      · have : 2 ^ (log2fuel f (n / 2) + 1 + 1) = 2 * 2 ^ (log2fuel f (n / 2) + 1) := by ring
        rw [this]
        omega

theorem log2n_bounds (n : Nat) (h1 : 1 ≤ n) :
    2 ^ log2n n ≤ n ∧ n < 2 ^ (log2n n + 1) :=
  log2fuel_bounds n n le_rfl h1

/-- The embedding of `usize::next_power_of_two`: the least power of two that is
greater than or equal to the argument (with result 1 on 0 and 1). -/
def next_power_of_two (n : Nat) : Nat :=
  if n ≤ 1 then 1 else 2 ^ (log2n (n - 1) + 1)

theorem next_power_of_two_spec (n : Nat) :
    ∃ k, next_power_of_two n = 2 ^ k ∧ n ≤ 2 ^ k ∧ (1 ≤ n → 2 ^ k < 2 * n) := by
  by_cases h : n ≤ 1
  · refine ⟨0, by simp [next_power_of_two, h], by omega, by omega⟩
  · have h1 : 1 ≤ n - 1 := by omega
    obtain ⟨hlo, hhi⟩ := log2n_bounds (n - 1) h1
    refine ⟨log2n (n - 1) + 1, by simp [next_power_of_two, h], by omega, ?_⟩
    intro _
    have : 2 ^ (log2n (n - 1) + 1) = 2 * 2 ^ log2n (n - 1) := by ring
    omega

/-- Fuel-driven count of trailing zero bits; `fuel = n` always suffices. -/
def tzfuel : Nat → Nat → Nat
  | 0, _ => 0
  | fuel + 1, n => if n % 2 = 1 ∨ n = 0 then 0 else tzfuel fuel (n / 2) + 1

/-- The embedding of `usize::trailing_zeros` (64 on 0, as for a 64-bit word). -/
def trailing_zeros (n : Nat) : Nat :=
  if n = 0 then 64 else tzfuel n n

theorem tzfuel_pow (fuel : Nat) :
    ∀ k, 2 ^ k ≤ fuel → tzfuel fuel (2 ^ k) = k := by
  induction fuel with
  | zero =>
    intro k hk
    have : (0 : Nat) < 2 ^ k := by positivity
    omega
  | succ f ih =>
    intro k hk
    cases k with
    | zero => simp [tzfuel]
    | succ k' =>
      have hpow : 2 ^ (k' + 1) = 2 * 2 ^ k' := by ring
      have hmod : 2 ^ (k' + 1) % 2 = 0 := by
        rw [hpow]; omega
      have hne : 2 ^ (k' + 1) ≠ 0 := by positivity
      simp only [tzfuel, hmod]
      have hdiv : 2 ^ (k' + 1) / 2 = 2 ^ k' := by rw [hpow]; omega
      have hk' : 2 ^ k' ≤ f := by
        have h1 : (1 : Nat) ≤ 2 ^ k' := Nat.one_le_two_pow
        omega
      rw [if_neg (by omega), hdiv, ih k' hk']

theorem trailing_zeros_pow (k : Nat) : trailing_zeros (2 ^ k) = k := by
  have hne : 2 ^ k ≠ 0 := by positivity
  rw [trailing_zeros, if_neg hne]
  exact tzfuel_pow (2 ^ k) k le_rfl

/-- The embedding of `triomphe::Arc<[u8]>`: an abstract heap address (the
pointer to the first byte, unique per allocation) together with the stored
bytes.  Strong counts live in the pool state, keyed by address. -/
structure ArcBytes where
  addr : Nat
  data : Bytes
deriving DecidableEq

/-- The embedding of `ShardedSet` from `pool.rs`, together with the heap
facts the code relies on: `shards` is the boxed shard array (a function from
shard index to the entries of that shard's hash table; indices at or beyond
`count`, the array length, hold `[]`), `strong` is each buffer's atomic
strong count, `hash` is the process-wide seeded `ahash` hasher (an arbitrary
function into the naturals, reduced modulo `2 ^ 64` at use sites), and
`nextAddr` drives fresh-address allocation (addresses are never reused). -/
structure ShardedSet where
  shift : Nat
  count : Nat
  hash : Bytes → Nat
  shards : Nat → List ArcBytes
  strong : Nat → Nat
  nextAddr : Nat

/-- Shard selection from `ShardedSet::get_hash_and_shard`:
`((hash << 7) >> shift) as usize` on a 64-bit word. -/
def ShardedSet.idxOf (s : ShardedSet) (v : Bytes) : Nat :=
  s.hash v * 2 ^ 7 % 2 ^ 64 / 2 ^ s.shift

/-- Events of a pool operation, recorded in program order: computing the
seeded hash of a byte sequence, and acquiring a shard's mutex. -/
inductive PoolEvent where
  | hashed (v : Bytes) (h : Nat)
  | locked (idx : Nat)
deriving DecidableEq

/-- The embedding of `ShardedSet::get_hash_and_shard` as its trace of
events: the hash is computed first, then the selected shard's lock is
acquired. -/
def ShardedSet.get_hash_and_shard_events (s : ShardedSet) (v : Bytes) : List PoolEvent :=
  [PoolEvent.hashed v (s.hash v), PoolEvent.locked (s.idxOf v)]

/-- The embedding of `ShardedSet::get_or_insert`: select the shard from the
hash, look up an entry holding byte-equal contents; on a hit, clone the
stored `Arc` (bump its strong count) and return it; on a miss, allocate a
fresh buffer holding the bytes, insert it (the table's reference), and
return a clone (count 2: table + caller). -/
def ShardedSet.get_or_insert (s : ShardedSet) (v : Bytes) : ArcBytes × ShardedSet :=
  let idx := s.idxOf v
  match (s.shards idx).find? (fun e => e.data == v) with
  | some e =>
    (e, { s with strong := fun a => if a = e.addr then s.strong a + 1 else s.strong a })
  | none =>
    let nb : ArcBytes := ⟨s.nextAddr, v⟩
    (nb, { s with
      shards := fun j => if j = idx then nb :: s.shards idx else s.shards j,
      strong := fun a => if a = s.nextAddr then 2 else s.strong a,
      nextAddr := s.nextAddr + 1 })

/-- Remove the first entry satisfying the predicate, leaving the rest in
place (the effect of `hash_table::OccupiedEntry::remove` on the one found
entry). -/
def removeFirst (p : ArcBytes → Bool) : List ArcBytes → List ArcBytes
  | [] => []
  | e :: rest => if p e then rest else e :: removeFirst p rest

/-- The embedding of `ShardedSet::remove_if_needed`.  `c1` is the strong
count read by the unlocked fast path (a racing snapshot, possibly stale by
the time the lock is taken); `s` is the pool state observed under the shard
lock.  If the snapshot exceeds two, return without locking.  Otherwise lock
the shard selected by the hash of the buffer's bytes, look up an entry whose
stored buffer has the same address as the argument, and remove it only if
its strong count is still at most two (the removal drops the table's own
reference).  The second component records which shard lock, if any, was
acquired. -/
def ShardedSet.remove_if_needed (s : ShardedSet) (c1 : Nat) (v : ArcBytes) :
    ShardedSet × Option Nat :=
  if c1 > 2 then (s, none)
  else
    let idx := s.idxOf v.data
    match (s.shards idx).find? (fun e => e.addr == v.addr) with
    | some e =>
      if s.strong e.addr ≤ 2 then
        ({ s with
            shards := fun j =>
              if j = idx then removeFirst (fun e2 => e2.addr == v.addr) (s.shards idx)
              else s.shards j,
            strong := fun a => if a = e.addr then s.strong a - 1 else s.strong a },
          some idx)
      else (s, some idx)
    | none => (s, some idx)

/-- The embedding of `Interned` from `interned.rs`: a newtype over the
shared buffer it owns one strong reference to. -/
structure Interned where
  buf : ArcBytes
deriving DecidableEq

/-- The embedding of `Interned::new`: delegate to `POOL.get_or_insert`. -/
def Interned.new (s : ShardedSet) (v : Bytes) : Interned × ShardedSet :=
  let (b, s') := s.get_or_insert v
  (⟨b⟩, s')

/-- The buffer address backing a handle (`as_ptr`). -/
def Interned.address (h : Interned) : Nat := h.buf.addr

/-- The bytes a handle dereferences to. -/
def Interned.data (h : Interned) : Bytes := h.buf.data

/-- The embedding of `Clone for Interned` (derived): clone the inner `Arc`,
bumping its strong count; the pool is not touched. -/
def Interned.clone (s : ShardedSet) (h : Interned) : Interned × ShardedSet :=
  (⟨h.buf⟩, { s with strong := fun a => if a = h.buf.addr then s.strong a + 1 else s.strong a })

/-- The embedding of `Drop for Interned`: call `POOL.remove_if_needed` on
the handle's buffer (the unlocked fast-path count is read from the current
state), then drop the handle's own strong reference. -/
def Interned.dropHandle (s : ShardedSet) (h : Interned) : ShardedSet :=
  let s' := (s.remove_if_needed (s.strong h.buf.addr) h.buf).1
  { s' with strong := fun a => if a = h.buf.addr then s'.strong a - 1 else s'.strong a }

/-- The embedding of `PartialEq for Interned`: buffer-address equality. -/
def Interned.eq (a b : Interned) : Bool := a.buf.addr == b.buf.addr

/-- The embedding of `Ord for Interned`: compare the dereferenced byte
slices. -/
def Interned.cmp (a b : Interned) : Ordering := sliceCompare a.data b.data

/-- The embedding of `BorrowedInterned` from `borrow.rs`: a view of a byte
slice living inside a buffer owned elsewhere, carrying the slice's address
(the buffer's first-byte pointer) and the viewed bytes. -/
structure BorrowedInterned where
  addr : Nat
  data : Bytes
deriving DecidableEq

/-- The embedding of `AsRef<BorrowedInterned> for Interned` (and of the
`Borrow` impl): view the handle's dereferenced slice, which starts at the
buffer's address. -/
def Interned.asRef (h : Interned) : BorrowedInterned := ⟨h.buf.addr, h.buf.data⟩

/-- The embedding of `PartialEq for BorrowedInterned`: address equality. -/
def BorrowedInterned.eq (a b : BorrowedInterned) : Bool := a.addr == b.addr

/-- The embedding of `Ord for BorrowedInterned`: compare the dereferenced
byte slices. -/
def BorrowedInterned.cmp (a b : BorrowedInterned) : Ordering := sliceCompare a.data b.data

/-- One call to Rust's `Hasher` interface as the code performs it: feeding a
byte-slice value or a single byte value into the hasher stream. -/
inductive HashTok where
  | chunk (d : Bytes)
  | byte (b : Byte)
deriving DecidableEq

/-- The embedding of `Interned::hash_data`: feed the dereferenced bytes,
then a single `0u8`, into the hasher state. -/
def Interned.hash_data (h : Interned) (st : List HashTok) : List HashTok :=
  st ++ [HashTok.chunk h.data, HashTok.byte 0]

/-- The embedding of `BorrowedInterned::hash_data`: feed the dereferenced
bytes, then a single `0u8`, into the hasher state. -/
def BorrowedInterned.hash_data (b : BorrowedInterned) (st : List HashTok) : List HashTok :=
  st ++ [HashTok.chunk b.data, HashTok.byte 0]

/-- The reported parallelism as `Interned`'s pool sees it: `none` when
`std::thread::available_parallelism()` errs, otherwise the (nonzero)
thread count. -/
def parValue : Option Nat → Nat
  | none => 1
  | some p => p

/-- The shard count chosen at initialization (`DEFAULT_SHARDS_COUNT`):
the next power of two of four times the reported parallelism, with 1
substituted when parallelism is unknown. -/
def defaultShardsCount (par : Option Nat) : Nat :=
  next_power_of_two (parValue par * 4)

/-- The shift chosen at initialization: word width minus the trailing-zeros
count of the shard count. -/
def shiftOf (par : Option Nat) : Nat :=
  64 - trailing_zeros (defaultShardsCount par)

/-- The embedding of `Default for ShardedSet` (the state of the freshly
initialized `POOL`): empty shards, all strong counts zero, the configured
shard count and shift, and the process-wide seeded hash function. -/
def initPool (hashf : Bytes → Nat) (par : Option Nat) : ShardedSet :=
  { shift := shiftOf par,
    count := defaultShardsCount par,
    hash := hashf,
    shards := fun _ => [],
    strong := fun _ => 0,
    nextAddr := 0 }

/-- Fold `get_or_insert` over a sequence of byte values, discarding the
returned clones (the pool state after any sequence of interning calls). -/
def runInserts (s : ShardedSet) : List Bytes → ShardedSet
  | [] => s
  | v :: vs => runInserts (s.get_or_insert v).2 vs

/-- The pool invariant maintained by the sharded set: the shard geometry
established at initialization (a power-of-two shard count with the matching
shift), every entry stored in the shard its bytes hash to, at most one entry
per byte value within a shard, address uniqueness across live buffers,
freshness of the address allocator, and empty storage beyond the shard
array. -/
structure PoolWF (s : ShardedSet) : Prop where
  geom : ∃ k, k ≤ 64 ∧ s.count = 2 ^ k ∧ s.shift = 64 - k
  placed : ∀ i e, e ∈ s.shards i → i = s.idxOf e.data
  dataUniq : ∀ i, (s.shards i).Pairwise (fun e1 e2 => e1.data ≠ e2.data)
  addrUniq : ∀ i j e1 e2, e1 ∈ s.shards i → e2 ∈ s.shards j →
    e1.addr = e2.addr → e1.data = e2.data
  fresh : ∀ i e, e ∈ s.shards i → e.addr < s.nextAddr
  outRange : ∀ i, s.count ≤ i → s.shards i = []

theorem ShardedSet.idxOf_lt_count (s : ShardedSet)
    (hg : ∃ k, k ≤ 64 ∧ s.count = 2 ^ k ∧ s.shift = 64 - k) (v : Bytes) :
    s.idxOf v < s.count := by
  obtain ⟨k, hk, hc, hs⟩ := hg
  rw [ShardedSet.idxOf, hc, hs]
  have hpos : 0 < 2 ^ (64 - k) := by positivity
  rw [Nat.div_lt_iff_lt_mul hpos]
  calc s.hash v * 2 ^ 7 % 2 ^ 64 < 2 ^ 64 := Nat.mod_lt _ (by positivity)
    _ = 2 ^ k * 2 ^ (64 - k) := by
        rw [← pow_add]
        congr 1
        omega

theorem PoolWF.same_data_same_entry {s : ShardedSet} (hwf : PoolWF s)
    {i j : Nat} {e1 e2 : ArcBytes} (h1 : e1 ∈ s.shards i) (h2 : e2 ∈ s.shards j)
    (hd : e1.data = e2.data) : i = j ∧ e1 = e2 := by
  have hij : i = j := by
    rw [hwf.placed i e1 h1, hwf.placed j e2 h2, hd]
  subst hij
  refine ⟨rfl, ?_⟩
  by_contra hne
  have hsym : Symmetric (fun e1 e2 : ArcBytes => e1.data ≠ e2.data) :=
    fun a b h => fun hc => h hc.symm
  exact (List.Pairwise.forall hsym (hwf.dataUniq i) h1 h2 hne) hd

theorem mem_removeFirst_of_not {p : ArcBytes → Bool} {l : List ArcBytes} {e : ArcBytes}
    (he : e ∈ l) (hp : p e = false) : e ∈ removeFirst p l := by
  induction l with
  | nil => cases he
  | cons a rest ih =>
    rw [removeFirst]
    rcases List.mem_cons.mp he with rfl | hmem
    · rw [hp]
      simp
    · by_cases ha : p a = true
      · rw [if_pos ha]; exact hmem
      · rw [if_neg ha]
        exact List.mem_cons_of_mem a (ih hmem)

theorem mem_of_mem_removeFirst {p : ArcBytes → Bool} {l : List ArcBytes} {e : ArcBytes}
    (he : e ∈ removeFirst p l) : e ∈ l := by
  induction l with
  | nil => cases he
  | cons a rest ih =>
    rw [removeFirst] at he
    by_cases ha : p a = true
    · rw [if_pos ha] at he
      exact List.mem_cons_of_mem a he
    · rw [if_neg ha] at he
      rcases List.mem_cons.mp he with rfl | hmem
      · exact List.mem_cons_self _ _
      · exact List.mem_cons_of_mem a (ih hmem)

theorem ShardedSet.get_or_insert_found {s : ShardedSet} {v : Bytes} {e : ArcBytes}
    (hfind : (s.shards (s.idxOf v)).find? (fun e => e.data == v) = some e) :
    s.get_or_insert v =
      (e, { s with strong := fun a => if a = e.addr then s.strong a + 1 else s.strong a }) := by
  rw [ShardedSet.get_or_insert]
  simp only [hfind]

theorem ShardedSet.get_or_insert_miss {s : ShardedSet} {v : Bytes}
    (hfind : (s.shards (s.idxOf v)).find? (fun e => e.data == v) = none) :
    s.get_or_insert v =
      (⟨s.nextAddr, v⟩, { s with
        shards := fun j =>
          if j = s.idxOf v then ⟨s.nextAddr, v⟩ :: s.shards (s.idxOf v) else s.shards j,
        strong := fun a => if a = s.nextAddr then 2 else s.strong a,
        nextAddr := s.nextAddr + 1 }) := by
  rw [ShardedSet.get_or_insert]
  simp only [hfind]

theorem ShardedSet.get_or_insert_data (s : ShardedSet) (v : Bytes) :
    (s.get_or_insert v).1.data = v := by
  match hfind : (s.shards (s.idxOf v)).find? (fun e => e.data == v) with
  | some e =>
    rw [s.get_or_insert_found hfind]
    have := List.find?_some hfind
    simpa using this
  | none =>
    rw [s.get_or_insert_miss hfind]

theorem ShardedSet.get_or_insert_idxOf (s : ShardedSet) (v w : Bytes) :
    (s.get_or_insert v).2.idxOf w = s.idxOf w := by
  match hfind : (s.shards (s.idxOf v)).find? (fun e => e.data == v) with
  | some e =>
    rw [s.get_or_insert_found hfind]
    rfl
  | none =>
    rw [s.get_or_insert_miss hfind]
    rfl

theorem ShardedSet.get_or_insert_mem (s : ShardedSet) (v : Bytes) :
    (s.get_or_insert v).1 ∈ (s.get_or_insert v).2.shards (s.idxOf v) := by
  match hfind : (s.shards (s.idxOf v)).find? (fun e => e.data == v) with
  | some e =>
    rw [s.get_or_insert_found hfind]
    exact List.mem_of_find?_eq_some hfind
  | none =>
    rw [s.get_or_insert_miss hfind]
    simp

theorem ShardedSet.get_or_insert_mono (s : ShardedSet) (v : Bytes)
    {i : Nat} {e : ArcBytes} (he : e ∈ s.shards i) :
    e ∈ (s.get_or_insert v).2.shards i := by
  match hfind : (s.shards (s.idxOf v)).find? (fun e => e.data == v) with
  | some e' =>
    rw [s.get_or_insert_found hfind]
    exact he
  | none =>
    rw [s.get_or_insert_miss hfind]
    simp only
    by_cases hi : i = s.idxOf v
    · subst hi
      simp only [if_pos rfl]
      exact List.mem_cons_of_mem _ he
    · simp only [if_neg hi]
      exact he

theorem ShardedSet.get_or_insert_hit {s : ShardedSet} {v : Bytes} {j : Nat} {e0 : ArcBytes}
    (hwf : PoolWF s) (he : e0 ∈ s.shards j) (hd : e0.data = v) :
    (s.get_or_insert v).1 = e0 := by
  have hj : j = s.idxOf v := by
    rw [hwf.placed j e0 he, hd]
  subst hj
  match hfind : (s.shards (s.idxOf v)).find? (fun e => e.data == v) with
  | some e =>
    rw [s.get_or_insert_found hfind]
    have hed : e.data = v := by simpa using List.find?_some hfind
    have hmem : e ∈ s.shards (s.idxOf v) := List.mem_of_find?_eq_some hfind
    exact (hwf.same_data_same_entry hmem he (hed.trans hd.symm)).2
  | none =>
    exfalso
    have := List.find?_eq_none.mp hfind e0 he
    simp [hd] at this

theorem ShardedSet.get_or_insert_fresh {s : ShardedSet} {v : Bytes}
    (habsent : ∀ i e, e ∈ s.shards i → e.data ≠ v) :
    (s.get_or_insert v).1.addr = s.nextAddr ∧
      (s.get_or_insert v).2.nextAddr = s.nextAddr + 1 := by
  match hfind : (s.shards (s.idxOf v)).find? (fun e => e.data == v) with
  | some e =>
    exfalso
    have hed : e.data = v := by simpa using List.find?_some hfind
    exact habsent _ e (List.mem_of_find?_eq_some hfind) hed
  | none =>
    rw [s.get_or_insert_miss hfind]
    exact ⟨rfl, rfl⟩

theorem ShardedSet.get_or_insert_strong (s : ShardedSet) (v : Bytes) (hwf : PoolWF s) :
    ((s.get_or_insert v).2.strong (s.get_or_insert v).1.addr =
        s.strong (s.get_or_insert v).1.addr + 1 ∧
      (s.get_or_insert v).1 ∈ s.shards (s.idxOf v)) ∨
    ((s.get_or_insert v).2.strong (s.get_or_insert v).1.addr = 2 ∧
      (s.get_or_insert v).1.addr = s.nextAddr ∧
      ∀ i e, e ∈ s.shards i → e.data ≠ v) := by
  match hfind : (s.shards (s.idxOf v)).find? (fun e => e.data == v) with
  | some e =>
    rw [s.get_or_insert_found hfind]
    left
    exact ⟨by simp, List.mem_of_find?_eq_some hfind⟩
  | none =>
    rw [s.get_or_insert_miss hfind]
    right
    refine ⟨by simp, rfl, ?_⟩
    intro i e he hd
    have hidx : i = s.idxOf v := by
      rw [hwf.placed i e he, hd]
    subst hidx
    have := List.find?_eq_none.mp hfind e he
    simp [hd] at this

theorem PoolWF.get_or_insert {s : ShardedSet} (hwf : PoolWF s) (v : Bytes) :
    PoolWF (s.get_or_insert v).2 := by
  match hfind : (s.shards (s.idxOf v)).find? (fun e => e.data == v) with
  | some e =>
    rw [s.get_or_insert_found hfind]
    exact { geom := hwf.geom, placed := hwf.placed, dataUniq := hwf.dataUniq,
            addrUniq := hwf.addrUniq, fresh := hwf.fresh, outRange := hwf.outRange }
  | none =>
    rw [s.get_or_insert_miss hfind]
    dsimp only
    have hidx : s.idxOf v < s.count := s.idxOf_lt_count hwf.geom v
    have habs : ∀ e, e ∈ s.shards (s.idxOf v) → e.data ≠ v := by
      intro e he hd
      have := List.find?_eq_none.mp hfind e he
      simp [hd] at this
    refine ⟨hwf.geom, ?_, ?_, ?_, ?_, ?_⟩
    · -- placed
      intro i e he
      simp only at he ⊢
      show i = ShardedSet.idxOf _ e.data
      by_cases hi : i = s.idxOf v
      · subst hi
        rw [if_pos rfl] at he
        rcases List.mem_cons.mp he with rfl | hmem
        · exact rfl
        · exact hwf.placed _ e hmem
      · rw [if_neg hi] at he
        exact hwf.placed i e he
    · -- dataUniq
      intro i
      simp only
      by_cases hi : i = s.idxOf v
      · subst hi
        rw [if_pos rfl]
        exact List.Pairwise.cons (fun e he => fun hd => habs e he hd.symm)
          (hwf.dataUniq (s.idxOf v))
      · rw [if_neg hi]
        exact hwf.dataUniq i
    · -- addrUniq
      intro i j e1 e2 h1 h2 haddr
      simp only at h1 h2
      have hsplit : ∀ {m : Nat} {f : ArcBytes},
          (f ∈ (if m = s.idxOf v then (⟨s.nextAddr, v⟩ : ArcBytes) :: s.shards (s.idxOf v)
            else s.shards m)) → f = ⟨s.nextAddr, v⟩ ∨ f ∈ s.shards m := by
        intro m f hf
        by_cases hm : m = s.idxOf v
        · subst hm
          rw [if_pos rfl] at hf
          exact List.mem_cons.mp hf
        · rw [if_neg hm] at hf
          exact Or.inr hf
      rcases hsplit h1 with rfl | hm1 <;> rcases hsplit h2 with rfl | hm2
      · rfl
      · exfalso
        have h2' := hwf.fresh j e2 hm2
        have h' : s.nextAddr = e2.addr := haddr
        omega
      · exfalso
        have h1' := hwf.fresh i e1 hm1
        have h' : e1.addr = s.nextAddr := haddr
        omega
      · exact hwf.addrUniq i j e1 e2 hm1 hm2 haddr
    · -- fresh
      intro i e he
      dsimp only at he ⊢
      by_cases hi : i = s.idxOf v
      · subst hi
        rw [if_pos rfl] at he
        rcases List.mem_cons.mp he with rfl | hmem
        · simp
        · have := hwf.fresh _ e hmem
          omega
      · rw [if_neg hi] at he
        have := hwf.fresh i e he
        omega
    · -- outRange
      intro i hi
      dsimp only at hi ⊢
      have : i ≠ s.idxOf v := by omega
      rw [if_neg this]
      exact hwf.outRange i hi

theorem log2n_pow (k : Nat) : log2n (2 ^ k) = k := by
  have h1 : (1 : Nat) ≤ 2 ^ k := Nat.one_le_two_pow
  obtain ⟨hlo, hhi⟩ := log2n_bounds (2 ^ k) h1
  by_contra hne
  rcases Nat.lt_or_ge (log2n (2 ^ k)) k with hlt | hge
  · have : 2 ^ k < 2 ^ k := lt_of_lt_of_le hhi (Nat.pow_le_pow_right (by omega) (by omega))
    omega
  · have hgt : k < log2n (2 ^ k) := by omega
    have : 2 ^ (k + 1) ≤ 2 ^ k :=
      le_trans (Nat.pow_le_pow_right (by omega) (by omega)) hlo
    have h2 : 2 ^ (k + 1) = 2 * 2 ^ k := by ring
    omega

theorem defaultShardsCount_pow (par : Option Nat) (hb : parValue par * 4 ≤ 2 ^ 63) :
    ∃ k, k ≤ 63 ∧ defaultShardsCount par = 2 ^ k := by
  obtain ⟨k, hpow, hge, hlt⟩ := next_power_of_two_spec (parValue par * 4)
  refine ⟨k, ?_, hpow⟩
  by_cases hz : parValue par * 4 = 0
  · have h1 : defaultShardsCount par = 1 := by
      unfold defaultShardsCount
      rw [hz]
      rfl
    have h2 : (2 : Nat) ^ k = 1 := by
      rw [← hpow]
      show defaultShardsCount par = 1
      exact h1
    rcases k with _ | k'
    · omega
    · exfalso
      have hp : (2 : Nat) ^ (k' + 1) = 2 * 2 ^ k' := by ring
      have hone : (1 : Nat) ≤ 2 ^ k' := Nat.one_le_two_pow
      omega
  · have h1 : 1 ≤ parValue par * 4 := by omega
    have := hlt h1
    have h64 : 2 ^ k < 2 ^ 64 := by
      have h2 : 2 * (parValue par * 4) ≤ 2 * 2 ^ 63 := by omega
      have h3 : 2 * 2 ^ 63 = 2 ^ 64 := by ring
      omega
    by_contra hk
    have : 2 ^ 64 ≤ 2 ^ k := Nat.pow_le_pow_right (by omega) (by omega)
    omega

theorem PoolWF_initPool (hashf : Bytes → Nat) (par : Option Nat)
    (hb : parValue par * 4 ≤ 2 ^ 63) : PoolWF (initPool hashf par) := by
  obtain ⟨k, hk, hpow⟩ := defaultShardsCount_pow par hb
  refine ⟨⟨k, by omega, hpow, ?_⟩, ?_, ?_, ?_, ?_, ?_⟩
  · show shiftOf par = 64 - k
    rw [shiftOf, hpow, trailing_zeros_pow]
  · intro i e he
    cases he
  · intro i
    exact List.Pairwise.nil
  · intro i j e1 e2 h1 h2
    cases h1
  · intro i e he
    cases he
  · intro i _
    rfl

theorem PoolWF_runInserts {s : ShardedSet} (hwf : PoolWF s) (vs : List Bytes) :
    PoolWF (runInserts s vs) := by
  induction vs generalizing s with
  | nil => exact hwf
  | cons v vs ih =>
    rw [runInserts]
    exact ih (hwf.get_or_insert v)

theorem Interned.new_eq (s : ShardedSet) (v : Bytes) :
    Interned.new s v = (⟨(s.get_or_insert v).1⟩, (s.get_or_insert v).2) := rfl

/-- An arbitrary concrete hash function standing in for the process-wide
seeded hasher in concrete witness states. -/
def hash0 : Bytes → Nat := fun v => v.length

/-- A freshly initialized pool with parallelism 1, used by witnesses. -/
def pool0 : ShardedSet := initPool hash0 (some 1)

/-- C1: identity interning.  After any sequence of `get_or_insert` calls
from the initial pool, the pool contains at most one entry per distinct byte
sequence value; `get_or_insert` returns a clone of that unique entry (its
result carries the requested bytes and is the one entry holding them); and
for two back-to-back constructions, with both handles live,
`address(Interned::new(x)) = address(Interned::new(y))` iff `x = y`. -/
theorem interning_identity
    (hashf : Bytes → Nat) (par : Option Nat) (vs : List Bytes)
    (s : ShardedSet) (x y : Bytes)
    (hb : parValue par * 4 ≤ 2 ^ 63) (hwf : PoolWF s) :
    (∀ i j e1 e2, e1 ∈ (runInserts (initPool hashf par) vs).shards i →
        e2 ∈ (runInserts (initPool hashf par) vs).shards j →
        e1.data = e2.data → i = j ∧ e1 = e2)
    ∧ ((s.get_or_insert x).1.data = x
        ∧ (s.get_or_insert x).1 ∈ (s.get_or_insert x).2.shards (s.idxOf x)
        ∧ ∀ i e, e ∈ (s.get_or_insert x).2.shards i → e.data = x →
            e = (s.get_or_insert x).1)
    ∧ ((Interned.new (Interned.new s x).2 y).1.address
        = (Interned.new s x).1.address ↔ y = x) := by
  have hwfrun : PoolWF (runInserts (initPool hashf par) vs) :=
    PoolWF_runInserts (PoolWF_initPool hashf par hb) vs
  have hwf1 : PoolWF (s.get_or_insert x).2 := hwf.get_or_insert x
  refine ⟨?_, ⟨s.get_or_insert_data x, s.get_or_insert_mem x, ?_⟩, ?_⟩
  · intro i j e1 e2 h1 h2 hd
    exact hwfrun.same_data_same_entry h1 h2 hd
  · intro i e he hd
    have hb1 := s.get_or_insert_mem x
    have hb1d := s.get_or_insert_data x
    exact (hwf1.same_data_same_entry he hb1 (hd.trans hb1d.symm)).2
  · rw [Interned.new_eq, Interned.new_eq]
    dsimp only [Interned.address]
    constructor
    · intro heq
      by_contra hne
      have hb1 : (s.get_or_insert x).1 ∈ (s.get_or_insert x).2.shards (s.idxOf x) :=
        s.get_or_insert_mem x
      have hb2 : ((s.get_or_insert x).2.get_or_insert y).1 ∈
          ((s.get_or_insert x).2.get_or_insert y).2.shards ((s.get_or_insert x).2.idxOf y) :=
        (s.get_or_insert x).2.get_or_insert_mem y
      have hb1' : (s.get_or_insert x).1 ∈
          ((s.get_or_insert x).2.get_or_insert y).2.shards (s.idxOf x) :=
        (s.get_or_insert x).2.get_or_insert_mono y hb1
      have hwf2 : PoolWF ((s.get_or_insert x).2.get_or_insert y).2 := hwf1.get_or_insert y
      have hdata := hwf2.addrUniq _ _ _ _ hb2 hb1' heq
      rw [(s.get_or_insert x).2.get_or_insert_data y, s.get_or_insert_data x] at hdata
      exact hne hdata
    · intro heq
      have hb1 : (s.get_or_insert x).1 ∈ (s.get_or_insert x).2.shards (s.idxOf x) :=
        s.get_or_insert_mem x
      have hb1d := s.get_or_insert_data x
      have hhit := ShardedSet.get_or_insert_hit hwf1 hb1 (hb1d.trans heq.symm)
      rw [hhit]

/-- Witness for C1 at a concrete pool, insert sequence and byte values. -/
theorem interning_identity_witness :
    (parValue (some 1) * 4 ≤ 2 ^ 63 ∧ PoolWF pool0)
    ∧ ((∀ i j e1 e2, e1 ∈ (runInserts (initPool hash0 (some 1)) [[0], [0], [1]]).shards i →
        e2 ∈ (runInserts (initPool hash0 (some 1)) [[0], [0], [1]]).shards j →
        e1.data = e2.data → i = j ∧ e1 = e2)
    ∧ ((pool0.get_or_insert [104]).1.data = [104]
        ∧ (pool0.get_or_insert [104]).1 ∈
            (pool0.get_or_insert [104]).2.shards (pool0.idxOf [104])
        ∧ ∀ i e, e ∈ (pool0.get_or_insert [104]).2.shards i → e.data = [104] →
            e = (pool0.get_or_insert [104]).1)
    ∧ ((Interned.new (Interned.new pool0 [104]).2 [105]).1.address
        = (Interned.new pool0 [104]).1.address ↔ ([105] : Bytes) = [104])) := by
  have hb : parValue (some 1) * 4 ≤ 2 ^ 63 := by norm_num [parValue]
  have hwf : PoolWF pool0 := PoolWF_initPool hash0 (some 1) hb
  exact ⟨⟨hb, hwf⟩,
    interning_identity hash0 (some 1) [[0], [0], [1]] pool0 [104] [105] hb hwf⟩

/-- C2: two-phase eviction.  With `c1` the strong count read by the
unlocked fast path: if `c1` exceeds two, `remove_if_needed` returns the
pool unchanged without acquiring any shard lock; otherwise it acquires
exactly the lock of the shard the buffer's bytes hash to, removes an entry
only if that entry's stored buffer has the same address as the argument and
its strong count (re-read under the lock) is still at most two, and in
every other case leaves the pool's contents unchanged. -/
theorem two_phase_eviction (s : ShardedSet) (c1 : Nat) (v : ArcBytes) :
    (c1 > 2 → s.remove_if_needed c1 v = (s, none))
    ∧ (c1 ≤ 2 → (s.remove_if_needed c1 v).2 = some (s.idxOf v.data))
    ∧ (∀ i e, e ∈ s.shards i → e ∉ (s.remove_if_needed c1 v).1.shards i →
        e.addr = v.addr ∧ s.strong e.addr ≤ 2)
    ∧ ((∀ e, e ∈ s.shards (s.idxOf v.data) → e.addr = v.addr →
          ¬ s.strong e.addr ≤ 2) →
        (s.remove_if_needed c1 v).1 = s) := by
  by_cases hc : c1 > 2
  · refine ⟨fun _ => ?_, fun hle => absurd hle (by omega), ?_, fun _ => ?_⟩
    · rw [ShardedSet.remove_if_needed, if_pos hc]
    · intro i e he hne
      rw [ShardedSet.remove_if_needed, if_pos hc] at hne
      exact absurd he hne
    · rw [ShardedSet.remove_if_needed, if_pos hc]
  · have hrw : s.remove_if_needed c1 v =
        (match (s.shards (s.idxOf v.data)).find? (fun e => e.addr == v.addr) with
        | some e =>
          if s.strong e.addr ≤ 2 then
            ({ s with
                shards := fun j =>
                  if j = s.idxOf v.data then
                    removeFirst (fun e2 => e2.addr == v.addr) (s.shards (s.idxOf v.data))
                  else s.shards j,
                strong := fun a => if a = e.addr then s.strong a - 1 else s.strong a },
              some (s.idxOf v.data))
          else (s, some (s.idxOf v.data))
        | none => (s, some (s.idxOf v.data))) := by
      rw [ShardedSet.remove_if_needed, if_neg hc]
    refine ⟨fun hgt => absurd hgt hc, fun _ => ?_, ?_, ?_⟩
    · rw [hrw]
      match hfind : (s.shards (s.idxOf v.data)).find? (fun e => e.addr == v.addr) with
      | some e =>
        by_cases hstrong : s.strong e.addr ≤ 2
        · simp only [hfind, if_pos hstrong]
        · simp only [hfind, if_neg hstrong]
      | none => simp only [hfind]
    · intro i e he hne
      rw [hrw] at hne
      match hfind : (s.shards (s.idxOf v.data)).find? (fun e => e.addr == v.addr) with
      | some e' =>
        have he'addr : e'.addr = v.addr := by simpa using List.find?_some hfind
        by_cases hstrong : s.strong e'.addr ≤ 2
        · simp only [hfind, if_pos hstrong] at hne
          by_cases hi : i = s.idxOf v.data
          · subst hi
            rw [if_pos rfl] at hne
            by_cases hp : e.addr = v.addr
            · refine ⟨hp, ?_⟩
              rw [hp, ← he'addr]
              exact hstrong
            · exact absurd (mem_removeFirst_of_not he (by simpa using hp)) hne
          · rw [if_neg hi] at hne
            exact absurd he hne
        · simp only [hfind, if_neg hstrong] at hne
          exact absurd he hne
      | none =>
        simp only [hfind] at hne
        exact absurd he hne
    · intro hnone
      rw [hrw]
      match hfind : (s.shards (s.idxOf v.data)).find? (fun e => e.addr == v.addr) with
      | some e' =>
        have he'addr : e'.addr = v.addr := by simpa using List.find?_some hfind
        have he'mem : e' ∈ s.shards (s.idxOf v.data) := List.mem_of_find?_eq_some hfind
        have := hnone e' he'mem he'addr
        simp only [hfind, if_neg this]
      | none => simp only [hfind]

/-- Witness for C2: the fast path on a racing snapshot above two leaves a
concrete pool untouched and unlocked; at or below two the matching shard
lock is taken. -/
theorem two_phase_eviction_witness :
    (3 > 2 ∧ pool0.remove_if_needed 3 ⟨0, [7]⟩ = (pool0, none))
    ∧ (2 ≤ 2 ∧ (pool0.remove_if_needed 2 ⟨0, [7]⟩).2 = some (pool0.idxOf [7])) :=
  ⟨⟨by decide, (two_phase_eviction pool0 3 ⟨0, [7]⟩).1 (by decide)⟩,
    ⟨by decide, (two_phase_eviction pool0 2 ⟨0, [7]⟩).2.1 (by decide)⟩⟩

/-- C3: shard selection and sizing.  The shard count is the least power of
two at least four times the reported parallelism (1 substituted when
parallelism is unknown); the configured shift is the word width minus the
base-2 logarithm of the shard count; the shard index of a byte sequence is
`(h << 7) >> shift` over 64-bit words where `h` is its seeded hash; and in
`get_hash_and_shard` the hash is computed strictly before the shard lock is
acquired. -/
theorem shard_selection_and_sizing (par : Option Nat) (s : ShardedSet) (v : Bytes)
    (hp : 1 ≤ parValue par) (hb : parValue par * 4 ≤ 2 ^ 63) :
    (parValue none = 1)
    ∧ (∃ k, defaultShardsCount par = 2 ^ k
        ∧ 4 * parValue par ≤ 2 ^ k
        ∧ 2 ^ k < 2 * (4 * parValue par)
        ∧ shiftOf par = 64 - log2n (defaultShardsCount par))
    ∧ (s.idxOf v = s.hash v * 2 ^ 7 % 2 ^ 64 / 2 ^ s.shift)
    ∧ (∀ (i j : Nat) (w : Bytes) (h idx : Nat),
        (s.get_hash_and_shard_events v)[i]? = some (PoolEvent.hashed w h) →
        (s.get_hash_and_shard_events v)[j]? = some (PoolEvent.locked idx) → i < j) := by
  obtain ⟨k, hpow, hge, hlt⟩ := next_power_of_two_spec (parValue par * 4)
  have hk : defaultShardsCount par = 2 ^ k := hpow
  refine ⟨rfl, ⟨k, hk, by omega, ?_, ?_⟩, rfl, ?_⟩
  · have := hlt (by omega)
    omega
  · rw [shiftOf, hk, trailing_zeros_pow, log2n_pow]
  · intro i j w h idx h1 h2
    match i, j with
    | 0, 0 => simp [ShardedSet.get_hash_and_shard_events] at h2
    | 0, j + 1 => omega
    | 1, j => simp [ShardedSet.get_hash_and_shard_events] at h1
    | i + 2, j => simp [ShardedSet.get_hash_and_shard_events] at h1

/-- Witness for C3 at parallelism 1 and a concrete pool and value. -/
theorem shard_selection_and_sizing_witness :
    (1 ≤ parValue (some 1) ∧ parValue (some 1) * 4 ≤ 2 ^ 63)
    ∧ ((parValue none = 1)
    ∧ (∃ k, defaultShardsCount (some 1) = 2 ^ k
        ∧ 4 * parValue (some 1) ≤ 2 ^ k
        ∧ 2 ^ k < 2 * (4 * parValue (some 1))
        ∧ shiftOf (some 1) = 64 - log2n (defaultShardsCount (some 1)))
    ∧ (pool0.idxOf [1] = pool0.hash [1] * 2 ^ 7 % 2 ^ 64 / 2 ^ pool0.shift)
    ∧ (∀ (i j : Nat) (w : Bytes) (h idx : Nat),
        (pool0.get_hash_and_shard_events [1])[i]? = some (PoolEvent.hashed w h) →
        (pool0.get_hash_and_shard_events [1])[j]? = some (PoolEvent.locked idx) → i < j)) :=
  ⟨⟨by decide, by norm_num [parValue]⟩,
    shard_selection_and_sizing (some 1) pool0 [1] (by decide) (by norm_num [parValue])⟩

/-- C4: content hashing.  `hash_data` on a handle or a borrow feeds exactly
the underlying bytes followed by a single zero byte into the hasher stream;
consequently byte-equal handles (or borrows), regardless of their buffer
addresses, extend any hasher state identically and produce equal
content-hashes under the same hasher; a handle and its borrow feed the same
stream. -/
theorem content_hashing (a b : Interned) (p q : BorrowedInterned) (st : List HashTok)
    (hasher : List HashTok → Nat) (hab : a.data = b.data) (hpq : p.data = q.data) :
    (a.hash_data st = st ++ [HashTok.chunk a.data, HashTok.byte 0])
    ∧ (p.hash_data st = st ++ [HashTok.chunk p.data, HashTok.byte 0])
    ∧ (a.hash_data st = b.hash_data st)
    ∧ (hasher (a.hash_data []) = hasher (b.hash_data []))
    ∧ (p.hash_data st = q.hash_data st)
    ∧ (hasher (p.hash_data []) = hasher (q.hash_data []))
    ∧ (a.asRef.hash_data st = a.hash_data st) := by
  have hstream : a.hash_data st = b.hash_data st := by
    rw [Interned.hash_data, Interned.hash_data, hab]
  have hstream2 : p.hash_data st = q.hash_data st := by
    rw [BorrowedInterned.hash_data, BorrowedInterned.hash_data, hpq]
  refine ⟨rfl, rfl, hstream, ?_, hstream2, ?_, rfl⟩
  · rw [Interned.hash_data, Interned.hash_data, hab]
  · rw [BorrowedInterned.hash_data, BorrowedInterned.hash_data, hpq]

/-- Witness for C4 on byte-equal handles and borrows at distinct
addresses. -/
theorem content_hashing_witness :
    ((⟨⟨0, [1, 2]⟩⟩ : Interned).data = (⟨⟨9, [1, 2]⟩⟩ : Interned).data
      ∧ (⟨3, [5]⟩ : BorrowedInterned).data = (⟨4, [5]⟩ : BorrowedInterned).data)
    ∧ (((⟨⟨0, [1, 2]⟩⟩ : Interned).hash_data [] =
          [] ++ [HashTok.chunk (⟨⟨0, [1, 2]⟩⟩ : Interned).data, HashTok.byte 0])
    ∧ ((⟨3, [5]⟩ : BorrowedInterned).hash_data [] =
          [] ++ [HashTok.chunk (⟨3, [5]⟩ : BorrowedInterned).data, HashTok.byte 0])
    ∧ ((⟨⟨0, [1, 2]⟩⟩ : Interned).hash_data [] = (⟨⟨9, [1, 2]⟩⟩ : Interned).hash_data [])
    ∧ ((fun l : List HashTok => l.length) ((⟨⟨0, [1, 2]⟩⟩ : Interned).hash_data []) =
        (fun l : List HashTok => l.length) ((⟨⟨9, [1, 2]⟩⟩ : Interned).hash_data []))
    ∧ ((⟨3, [5]⟩ : BorrowedInterned).hash_data [] = (⟨4, [5]⟩ : BorrowedInterned).hash_data [])
    ∧ ((fun l : List HashTok => l.length) ((⟨3, [5]⟩ : BorrowedInterned).hash_data []) =
        (fun l : List HashTok => l.length) ((⟨4, [5]⟩ : BorrowedInterned).hash_data []))
    ∧ ((⟨⟨0, [1, 2]⟩⟩ : Interned).asRef.hash_data [] =
        (⟨⟨0, [1, 2]⟩⟩ : Interned).hash_data [])) :=
  ⟨⟨rfl, rfl⟩,
    content_hashing ⟨⟨0, [1, 2]⟩⟩ ⟨⟨9, [1, 2]⟩⟩ ⟨3, [5]⟩ ⟨4, [5]⟩ []
      (fun l => l.length) rfl rfl⟩

/-- C5: ordering.  `cmp` on handles is byte-lexicographic comparison of the
underlying byte sequences (`.lt` exactly on the lexicographic strict order,
`.eq` exactly on byte equality), independent of buffer addresses; `cmp` on
borrows is the same comparison, and the comparison of the borrows of two
handles agrees with the comparison of the handles. -/
theorem byte_lexicographic_ordering (a b a2 b2 : Interned) (u v : BorrowedInterned)
    (ha : a.data = a2.data) (hb : b.data = b2.data) :
    (a.cmp b = sliceCompare a.data b.data)
    ∧ (a.cmp b = .lt ↔ List.Lex (· < ·) a.data b.data)
    ∧ (a.cmp b = .eq ↔ a.data = b.data)
    ∧ (a.cmp b = a2.cmp b2)
    ∧ (u.cmp v = sliceCompare u.data v.data)
    ∧ (u.cmp v = .lt ↔ List.Lex (· < ·) u.data v.data)
    ∧ (u.cmp v = .eq ↔ u.data = v.data)
    ∧ (a.asRef.cmp b.asRef = a.cmp b) := by
  refine ⟨rfl, sliceCompare_lt_iff _ _, sliceCompare_eq_iff _ _, ?_,
    rfl, sliceCompare_lt_iff _ _, sliceCompare_eq_iff _ _, rfl⟩
  rw [Interned.cmp, Interned.cmp, ha, hb]

/-- Witness for C5 on concrete handles (with byte-equal copies at other
addresses) and borrows. -/
theorem byte_lexicographic_ordering_witness :
    ((⟨⟨0, [1, 2]⟩⟩ : Interned).data = (⟨⟨7, [1, 2]⟩⟩ : Interned).data
      ∧ (⟨⟨1, [1, 3]⟩⟩ : Interned).data = (⟨⟨8, [1, 3]⟩⟩ : Interned).data)
    ∧ (((⟨⟨0, [1, 2]⟩⟩ : Interned).cmp ⟨⟨1, [1, 3]⟩⟩ =
          sliceCompare (⟨⟨0, [1, 2]⟩⟩ : Interned).data (⟨⟨1, [1, 3]⟩⟩ : Interned).data)
    ∧ ((⟨⟨0, [1, 2]⟩⟩ : Interned).cmp ⟨⟨1, [1, 3]⟩⟩ = .lt ↔
        List.Lex (· < ·) (⟨⟨0, [1, 2]⟩⟩ : Interned).data (⟨⟨1, [1, 3]⟩⟩ : Interned).data)
    ∧ ((⟨⟨0, [1, 2]⟩⟩ : Interned).cmp ⟨⟨1, [1, 3]⟩⟩ = .eq ↔
        (⟨⟨0, [1, 2]⟩⟩ : Interned).data = (⟨⟨1, [1, 3]⟩⟩ : Interned).data)
    ∧ ((⟨⟨0, [1, 2]⟩⟩ : Interned).cmp ⟨⟨1, [1, 3]⟩⟩ =
        (⟨⟨7, [1, 2]⟩⟩ : Interned).cmp ⟨⟨8, [1, 3]⟩⟩)
    ∧ ((⟨2, [4]⟩ : BorrowedInterned).cmp ⟨3, [4]⟩ =
        sliceCompare (⟨2, [4]⟩ : BorrowedInterned).data (⟨3, [4]⟩ : BorrowedInterned).data)
    ∧ ((⟨2, [4]⟩ : BorrowedInterned).cmp ⟨3, [4]⟩ = .lt ↔
        List.Lex (· < ·) (⟨2, [4]⟩ : BorrowedInterned).data (⟨3, [4]⟩ : BorrowedInterned).data)
    ∧ ((⟨2, [4]⟩ : BorrowedInterned).cmp ⟨3, [4]⟩ = .eq ↔
        (⟨2, [4]⟩ : BorrowedInterned).data = (⟨3, [4]⟩ : BorrowedInterned).data)
    ∧ ((⟨⟨0, [1, 2]⟩⟩ : Interned).asRef.cmp (⟨⟨1, [1, 3]⟩⟩ : Interned).asRef =
        (⟨⟨0, [1, 2]⟩⟩ : Interned).cmp ⟨⟨1, [1, 3]⟩⟩)) :=
  ⟨⟨rfl, rfl⟩,
    byte_lexicographic_ordering ⟨⟨0, [1, 2]⟩⟩ ⟨⟨1, [1, 3]⟩⟩ ⟨⟨7, [1, 2]⟩⟩ ⟨⟨8, [1, 3]⟩⟩
      ⟨2, [4]⟩ ⟨3, [4]⟩ rfl rfl⟩

/-- C10: equality/ordering divergence at the type level.  For byte-equal
handles (or borrows) at distinct buffer addresses, `cmp` returns `.eq`
while `eq` returns `false`; `cmp`-equality implies `eq` under the interning
invariant that byte-equal live values share one address. -/
theorem eq_cmp_divergence (a b : Interned) (u v : BorrowedInterned)
    (hd : a.data = b.data) (ha : a.address ≠ b.address)
    (hd2 : u.data = v.data) (ha2 : u.addr ≠ v.addr) :
    (a.cmp b = .eq ∧ a.eq b = false)
    ∧ (u.cmp v = .eq ∧ u.eq v = false)
    ∧ (∀ c d : Interned, (c.data = d.data → c.address = d.address) →
        c.cmp d = .eq → c.eq d = true)
    ∧ (∀ c d : BorrowedInterned, (c.data = d.data → c.addr = d.addr) →
        c.cmp d = .eq → c.eq d = true) := by
  refine ⟨⟨(sliceCompare_eq_iff _ _).mpr hd, ?_⟩,
    ⟨(sliceCompare_eq_iff _ _).mpr hd2, ?_⟩, ?_, ?_⟩
  · rw [Interned.eq]
    exact beq_eq_false_iff_ne.mpr ha
  · rw [BorrowedInterned.eq]
    exact beq_eq_false_iff_ne.mpr ha2
  · intro c d hinv hcmp
    rw [Interned.eq]
    exact beq_iff_eq.mpr (hinv ((sliceCompare_eq_iff _ _).mp hcmp))
  · intro c d hinv hcmp
    rw [BorrowedInterned.eq]
    exact beq_iff_eq.mpr (hinv ((sliceCompare_eq_iff _ _).mp hcmp))

/-- Witness for C10 on concrete byte-equal values at distinct addresses. -/
theorem eq_cmp_divergence_witness :
    ((⟨⟨0, [6]⟩⟩ : Interned).data = (⟨⟨1, [6]⟩⟩ : Interned).data
      ∧ (⟨⟨0, [6]⟩⟩ : Interned).address ≠ (⟨⟨1, [6]⟩⟩ : Interned).address)
    ∧ (((⟨⟨0, [6]⟩⟩ : Interned).cmp ⟨⟨1, [6]⟩⟩ = .eq
        ∧ (⟨⟨0, [6]⟩⟩ : Interned).eq ⟨⟨1, [6]⟩⟩ = false)
    ∧ ((⟨2, [7]⟩ : BorrowedInterned).cmp ⟨5, [7]⟩ = .eq
        ∧ (⟨2, [7]⟩ : BorrowedInterned).eq ⟨5, [7]⟩ = false)
    ∧ (∀ c d : Interned, (c.data = d.data → c.address = d.address) →
        c.cmp d = .eq → c.eq d = true)
    ∧ (∀ c d : BorrowedInterned, (c.data = d.data → c.addr = d.addr) →
        c.cmp d = .eq → c.eq d = true)) :=
  ⟨⟨rfl, by decide⟩,
    eq_cmp_divergence ⟨⟨0, [6]⟩⟩ ⟨⟨1, [6]⟩⟩ ⟨2, [7]⟩ ⟨5, [7]⟩ rfl (by decide) rfl (by decide)⟩

/-- C9: shard indexing is safe.  Under the pool's initialization the shard
count is `2 ^ k` with `k ≥ 2` and the shift is `64 - k`; for every hash the
computed index `(h << 7) >> shift` is strictly less than the shard count
(so the shard-array access in `get_hash_and_shard` is in bounds), and the
shift never reaches the 64-bit word width. -/
theorem shard_indexing_safe (par : Option Nat) (hashf : Bytes → Nat) (v : Bytes)
    (hp : 1 ≤ parValue par) (hb : parValue par * 4 ≤ 2 ^ 63) :
    (∃ k, defaultShardsCount par = 2 ^ k ∧ 2 ≤ k ∧ shiftOf par = 64 - k)
    ∧ (initPool hashf par).idxOf v < (initPool hashf par).count
    ∧ shiftOf par < 64 := by
  obtain ⟨k, hpow, hge, hlt⟩ := next_power_of_two_spec (parValue par * 4)
  have hdsc : defaultShardsCount par = 2 ^ k := hpow
  have h4 : 4 ≤ 2 ^ k := le_trans (by omega) hge
  have hk2 : 2 ≤ k := by
    by_contra hc
    have : 2 ^ k ≤ 2 ^ 1 := Nat.pow_le_pow_right (by omega) (by omega)
    omega
  have hk63 : k ≤ 63 := by
    have h1 := hlt (by omega)
    have h2 : 2 * (parValue par * 4) ≤ 2 * 2 ^ 63 := by omega
    have h3 : 2 * 2 ^ 63 = 2 ^ 64 := by ring
    by_contra hc
    have : 2 ^ 64 ≤ 2 ^ k := Nat.pow_le_pow_right (by omega) (by omega)
    omega
  have hshift : shiftOf par = 64 - k := by
    rw [shiftOf, hdsc, trailing_zeros_pow]
  refine ⟨⟨k, hdsc, hk2, hshift⟩, ?_, by omega⟩
  exact ShardedSet.idxOf_lt_count _ (PoolWF_initPool hashf par hb).geom v

/-- Witness for C9 at parallelism 1, a concrete hasher and a concrete
value. -/
theorem shard_indexing_safe_witness :
    (1 ≤ parValue (some 1) ∧ parValue (some 1) * 4 ≤ 2 ^ 63)
    ∧ ((∃ k, defaultShardsCount (some 1) = 2 ^ k ∧ 2 ≤ k ∧ shiftOf (some 1) = 64 - k)
    ∧ (initPool hash0 (some 1)).idxOf [2] < (initPool hash0 (some 1)).count
    ∧ shiftOf (some 1) < 64) :=
  ⟨⟨by decide, by norm_num [parValue]⟩,
    shard_indexing_safe (some 1) hash0 [2] (by decide) (by norm_num [parValue])⟩

/-- Modelled from the spec: `ShardedSet::get_from_existing_ref`, the pool
lookup called by `BorrowedInterned::intern` in `borrow.rs`; its definition
is absent from the provided sources.  Per the spec the borrow "looks up the
buffer by address in the pool": select the shard from the borrowed bytes
and find the entry whose stored buffer address equals the borrow's
address. -/
def ShardedSet.get_from_existing_ref (s : ShardedSet) (b : BorrowedInterned) :
    Option ArcBytes :=
  (s.shards (s.idxOf b.data)).find? (fun e => e.addr == b.addr)

/-- The embedding of `BorrowedInterned::intern`: look the borrowed buffer
up in the pool and construct a handle sharing it (cloning bumps its strong
count); `none` is the fatal `expect` on a contract violation, when the
lookup fails. -/
def BorrowedInterned.intern (b : BorrowedInterned) (s : ShardedSet) :
    Option (Interned × ShardedSet) :=
  (s.get_from_existing_ref b).map (fun e =>
    (⟨e⟩, { s with strong := fun a => if a = e.addr then s.strong a + 1 else s.strong a }))

/-- C6: borrow re-promotion.  For a borrow derived from a still-live handle
`h` (whose buffer is in the pool), `intern()` succeeds and returns a handle
whose address equals `h`'s address; and for any borrow whose address
denotes its bytes and whose bytes are canonically placed (both guaranteed
by the interning invariant for borrows of live handles), `intern()` fails —
a fatal contract violation, not a recoverable error — exactly when the
borrowed bytes are not currently present in the pool. -/
theorem borrow_reintern (s : ShardedSet) (h : Interned)
    (hwf : PoolWF s) (hlive : h.buf ∈ s.shards (s.idxOf h.data)) :
    (∃ h' s', h.asRef.intern s = some (h', s') ∧ h'.address = h.address)
    ∧ ∀ b : BorrowedInterned,
        (∀ i e, e ∈ s.shards i → e.addr = b.addr → e.data = b.data) →
        (∀ i e, e ∈ s.shards i → e.data = b.data → e.addr = b.addr) →
        (b.intern s = none ↔ ∀ i e, e ∈ s.shards i → e.data ≠ b.data) := by
  constructor
  · have hsome : (s.get_from_existing_ref h.asRef).isSome := by
      rw [ShardedSet.get_from_existing_ref]
      rw [List.find?_isSome]
      exact ⟨h.buf, hlive, by simp [Interned.asRef]⟩
    obtain ⟨e, he⟩ := Option.isSome_iff_exists.mp hsome
    have headdr : e.addr = h.buf.addr := by
      have := List.find?_some he
      simpa [Interned.asRef] using this
    refine ⟨⟨e⟩,
      { s with strong := fun a => if a = e.addr then s.strong a + 1 else s.strong a },
      ?_, headdr⟩
    rw [BorrowedInterned.intern, he]
    rfl
  · intro b hdenote hcanon
    constructor
    · intro hnone i e he hd
      rw [BorrowedInterned.intern, Option.map_eq_none'] at hnone
      rw [ShardedSet.get_from_existing_ref, List.find?_eq_none] at hnone
      have haddr : e.addr = b.addr := hcanon i e he hd
      have hplace : i = s.idxOf b.data := by
        rw [hwf.placed i e he, hd]
      have := hnone e (by rw [← hplace]; exact he)
      simp [haddr] at this
    · intro habsent
      rw [BorrowedInterned.intern, Option.map_eq_none']
      rw [ShardedSet.get_from_existing_ref, List.find?_eq_none]
      intro e he
      simp only [beq_iff_eq]
      intro haddr
      exact habsent _ e he (hdenote _ e he haddr)

/-- A concrete pool state holding the single entry for the bytes `[9]`,
used by witnesses. -/
def poolHello : ShardedSet := (pool0.get_or_insert [9]).2

/-- The live handle over `[9]` returned by the insertion that produced
`poolHello`. -/
def internedHello : Interned := ⟨(pool0.get_or_insert [9]).1⟩

/-- Witness for C6 with a live handle over `[9]` in a concrete pool. -/
theorem borrow_reintern_witness :
    (PoolWF poolHello
      ∧ internedHello.buf ∈ poolHello.shards (poolHello.idxOf internedHello.data))
    ∧ ((∃ h' s', internedHello.asRef.intern poolHello = some (h', s')
          ∧ h'.address = internedHello.address)
    ∧ ∀ b : BorrowedInterned,
        (∀ i e, e ∈ poolHello.shards i → e.addr = b.addr → e.data = b.data) →
        (∀ i e, e ∈ poolHello.shards i → e.data = b.data → e.addr = b.addr) →
        (b.intern poolHello = none ↔
          ∀ i e, e ∈ poolHello.shards i → e.data ≠ b.data)) :=
  have hwf : PoolWF poolHello :=
    (PoolWF_initPool hash0 (some 1) (by norm_num [parValue])).get_or_insert [9]
  have hlive : internedHello.buf ∈ poolHello.shards (poolHello.idxOf internedHello.data) := by
    decide
  ⟨⟨hwf, hlive⟩, borrow_reintern poolHello internedHello hwf hlive⟩

/-- Fuel-driven little-endian base-128 varint encoder (continuation bit in
the high bit of each byte); `fuel = n + 1` always suffices. -/
def varintEncodeFuel : Nat → Nat → Bytes
  | 0, _ => []
  | fuel + 1, n =>
    if h : n < 128 then [⟨n, by omega⟩]
    else ⟨n % 128 + 128, by omega⟩ :: varintEncodeFuel fuel (n / 128)

/-- The varint length encoding of the binary codec (`length(varint)` in the
spec's description of the external `databuf` length-prefixed format). -/
def varintEncode (n : Nat) : Bytes := varintEncodeFuel (n + 1) n

/-- Varint decoder: returns the decoded number and the remaining input. -/
def varintDecode : Bytes → Option (Nat × Bytes)
  | [] => none
  | b :: rest =>
    if b.val < 128 then some (b.val, rest)
    else (varintDecode rest).map (fun p => (b.val - 128 + 128 * p.1, p.2))

theorem varintDecodeFuel_roundtrip (fuel : Nat) :
    ∀ n rest, n < fuel →
      varintDecode (varintEncodeFuel fuel n ++ rest) = some (n, rest) := by
  induction fuel with
  | zero => intro n rest hn; omega
  | succ f ih =>
    intro n rest hn
    by_cases h : n < 128
    · rw [varintEncodeFuel, dif_pos h]
      rw [List.cons_append, List.nil_append, varintDecode]
      simp only
      rw [if_pos h]
    · rw [varintEncodeFuel, dif_neg h]
      rw [List.cons_append, varintDecode]
      have hge : ¬ (n % 128 + 128 < 128) := by omega
      simp only
      rw [if_neg hge]
      have hdivlt : n / 128 < f := by
        have h1 : n / 128 < n := Nat.div_lt_self (by omega) (by omega)
        omega
      rw [ih (n / 128) rest hdivlt]
      rw [Option.map_some']
      have harith : n % 128 + 128 - 128 + 128 * (n / 128) = n := by omega
      rw [harith]

theorem varint_roundtrip (n : Nat) (rest : Bytes) :
    varintDecode (varintEncode n ++ rest) = some (n, rest) :=
  varintDecodeFuel_roundtrip (n + 1) n rest (by omega)

/-- The embedding of `Encode for Interned` (`databuf.rs`): the impl's body
is `Encode::encode::<CONFIG>(&self, w)` with `self : &Interned`, so the
argument is a `&&Interned`; `Self` resolves to `&Interned` and the call
goes through the codec's reference-delegating impl straight back into this
same function with the same handle, never reaching the byte-slice codec.
The self-delegation is fuel-indexed: the result is `none` (no output
written) when the call has not returned within `fuel` delegation steps. -/
def encodeInternedCode : Nat → Interned → Option Bytes
  | 0, _ => none
  | fuel + 1, h => encodeInternedCode fuel h

/-- The embedding of `Decode for Interned` (`databuf.rs`):
`Vec::<u8>::decode` reads a length-prefixed byte vector from the input
(the external codec's `length(varint) ∥ bytes` format) and `.into()`
interns it, returning the handle, the updated pool and the unread
remainder (or `none` on truncated input). -/
def decodeInterned (s : ShardedSet) (input : Bytes) :
    Option (Interned × ShardedSet × Bytes) :=
  match varintDecode input with
  | none => none
  | some (n, rest) =>
    if n ≤ rest.length then
      some ((Interned.new s (rest.take n)).1, (Interned.new s (rest.take n)).2, rest.drop n)
    else none

/-- The embedding of `Serialize for Interned` (`serde.rs`): a handle
serializes as its byte string. -/
def serializeInterned (h : Interned) : Bytes := h.data

/-- The embedding of `Deserialize for Interned` (`serde.rs`): deserialize
the byte string and intern it. -/
def deserializeInterned (s : ShardedSet) (payload : Bytes) : Interned × ShardedSet :=
  Interned.new s payload

theorem decodeInterned_spec (s : ShardedSet) (d rest : Bytes) :
    decodeInterned s (varintEncode d.length ++ (d ++ rest)) =
      some ((Interned.new s d).1, (Interned.new s d).2, rest) := by
  rw [decodeInterned, varint_roundtrip]
  have hlen : d.length ≤ (d ++ rest).length := by
    rw [List.length_append]
    omega
  dsimp only
  rw [if_pos hlen]
  rw [List.take_left, List.drop_left]

/-- C7: the binary round trip fails in the code.  At the repo's own test
input, the handle over `"hello"`, the `Encode for Interned` impl
self-delegates without progress and returns no output within any number of
delegation steps — it never produces `length(varint) ∥ bytes` and never
terminates.  By contrast the rest of the pipeline is faithful to the
claim: binary decoding of a correctly length-prefixed input terminates and
interns a byte-equal handle consuming exactly the encoding, and structured
serialization followed by deserialization returns a byte-equal handle. -/
theorem databuf_encode_diverges :
    (∀ fuel : Nat,
        encodeInternedCode fuel ⟨⟨0, [104, 101, 108, 108, 111]⟩⟩ = none)
    ∧ decodeInterned pool0 (varintEncode 5 ++ [104, 101, 108, 108, 111]) =
        some ((Interned.new pool0 [104, 101, 108, 108, 111]).1,
          (Interned.new pool0 [104, 101, 108, 108, 111]).2, [])
    ∧ (Interned.new pool0 [104, 101, 108, 108, 111]).1.data = [104, 101, 108, 108, 111]
    ∧ (deserializeInterned pool0
        (serializeInterned ⟨⟨0, [104, 101, 108, 108, 111]⟩⟩)).1.data =
        [104, 101, 108, 108, 111] := by
  refine ⟨?_, ?_, ?_, ?_⟩
  · intro fuel
    induction fuel with
    | zero => rfl
    | succ f ih => exact ih
  · have := decodeInterned_spec pool0 [104, 101, 108, 108, 111] []
    simpa using this
  · rw [Interned.new_eq]
    exact pool0.get_or_insert_data _
  · rw [deserializeInterned, serializeInterned, Interned.new_eq]
    exact pool0.get_or_insert_data _

/-- Modelled from the spec: the `DEFAULT` lazy static of `interned.rs`
(referenced by `borrow.rs` and by the tests, but absent from the provided
sources): a distinguished handle for the empty byte sequence, constructed
lazily on the first request and retained in the cell for the life of the
process.  The cell is `none` before first use; forcing it interns the empty
byte sequence once and stores the resulting handle. -/
def forceDefault (s : ShardedSet) (cell : Option Interned) :
    Interned × ShardedSet × Option Interned :=
  match cell with
  | some h => (h, s, some h)
  | none => ((Interned.new s []).1, (Interned.new s []).2, some (Interned.new s []).1)

/-- The embedding of `Default for &BorrowedInterned` (`borrow.rs`): borrow
the process-wide default handle (`interned::DEFAULT.deref().as_ref()`). -/
def defaultBorrowed (d : Interned) : BorrowedInterned := d.asRef

/-- C8: default handle.  The first request constructs a handle over the
empty byte sequence and stores it in the cell; every later request returns
the retained handle and leaves the pool untouched; once constructed, the
default handle's liveness (the pool's reference plus the default's own, so
a strong count of at least three including any dying handle) keeps its
entry from being evicted by any later handle drop, and drops of handles
over other buffers never remove it; borrowed views take their `Default`
value from the default handle, so the default borrow views the empty byte
sequence. -/
theorem default_handle (s : ShardedSet) (h : Interned) :
    ((forceDefault s none).1.data = []
      ∧ (forceDefault s none).2.2 = some (forceDefault s none).1)
    ∧ (∀ d : Interned, forceDefault s (some d) = (d, s, some d))
    ∧ (∀ i e, e ∈ s.shards i → (e.addr ≠ h.buf.addr ∨ 3 ≤ s.strong e.addr) →
        e ∈ (Interned.dropHandle s h).shards i)
    ∧ (defaultBorrowed (forceDefault s none).1).data = [] := by
  have hdata : (forceDefault s none).1.data = [] := by
    rw [forceDefault]
    dsimp only
    rw [Interned.new_eq]
    exact s.get_or_insert_data []
  refine ⟨⟨hdata, rfl⟩, fun d => rfl, ?_, hdata⟩
  intro i e he hcond
  rw [Interned.dropHandle]
  dsimp only
  by_cases haddr : e.addr = h.buf.addr
  · have hbig : 3 ≤ s.strong e.addr := by
      rcases hcond with hne | hbig
      · exact absurd haddr hne
      · exact hbig
    have hc : s.strong h.buf.addr > 2 := by rw [← haddr]; omega
    rw [ShardedSet.remove_if_needed, if_pos hc]
    exact he
  · by_cases hc : s.strong h.buf.addr > 2
    · rw [ShardedSet.remove_if_needed, if_pos hc]
      exact he
    · rw [ShardedSet.remove_if_needed, if_neg hc]
      dsimp only
      match hfind : (s.shards (s.idxOf h.buf.data)).find? (fun e => e.addr == h.buf.addr) with
      | some e' =>
        by_cases hstrong : s.strong e'.addr ≤ 2
        · simp only [hfind, if_pos hstrong]
          by_cases hi : i = s.idxOf h.buf.data
          · subst hi
            rw [if_pos rfl]
            exact mem_removeFirst_of_not he (by simpa using haddr)
          · rw [if_neg hi]
            exact he
        · simp only [hfind, if_neg hstrong]
          exact he
      | none =>
        simp only [hfind]
        exact he

/-- Witness for C8 at a concrete pool and handle. -/
theorem default_handle_witness :
    ((forceDefault poolHello none).1.data = []
      ∧ (forceDefault poolHello none).2.2 = some (forceDefault poolHello none).1)
    ∧ (∀ d : Interned, forceDefault poolHello (some d) = (d, poolHello, some d))
    ∧ (∀ i e, e ∈ poolHello.shards i →
        (e.addr ≠ (⟨⟨0, [9]⟩⟩ : Interned).buf.addr ∨ 3 ≤ poolHello.strong e.addr) →
        e ∈ (Interned.dropHandle poolHello ⟨⟨0, [9]⟩⟩).shards i)
    ∧ (defaultBorrowed (forceDefault poolHello none).1).data = [] :=
  default_handle poolHello ⟨⟨0, [9]⟩⟩
